import Mathlib

/-!
# NTFSfixer: verification of the bad-block range processor core

Shallow embedding of the arithmetic core of `main.py`:
`parse_blocks`, `invert_blocks`, `create_ranges`, `block_to_sector`,
and the sector-range construction and scale-factor computation of `main`.

Text is modelled as Lean `String` (a list of characters); Python integers
are modelled as `Int`.
-/

namespace NTFSfixer

/-- The whitespace characters of Python's `str.strip` / `str.split()`
(space, tab, newline, carriage return, vertical tab, form feed). -/
def pyWhitespace (c : Char) : Bool :=
  c = ' ' || c = '\t' || c = '\n' || c = '\r' || c = '\x0b' || c = '\x0c'

/-- Python `data.strip()`: drop leading and trailing whitespace. -/
def pyStrip (s : List Char) : List Char :=
  (((s.dropWhile pyWhitespace).reverse).dropWhile pyWhitespace).reverse

/-- Python `s.split('\n')`: split on each newline, keeping empty pieces;
the empty string yields one empty piece. -/
def splitOnNewline : List Char → List (List Char)
  | [] => [[]]
  | c :: cs =>
    if c = '\n' then [] :: splitOnNewline cs
    else
      match splitOnNewline cs with
      | [] => [[c]]
      | l :: ls => (c :: l) :: ls

/-- Python `line.split()[0]` guarded by `parts` being non-empty:
the first maximal run of non-whitespace characters, if any.
`line.split()` drops empty tokens, so `parts` is non-empty exactly when
the line contains a non-whitespace character, and `parts[0]` is then the
first whitespace-delimited token. -/
def firstToken (line : List Char) : Option (List Char) :=
  match (line.dropWhile pyWhitespace).takeWhile (fun c => !pyWhitespace c) with
  | [] => none
  | c :: cs => some (c :: cs)

/-- Python `t.isdigit()` for decimal-digit tokens: non-empty and all
characters in `0`–`9`. -/
def isDigits (t : List Char) : Bool :=
  !t.isEmpty && t.all (fun c => c.isDigit)

/-- Python `int(t)` on a string of decimal digits. -/
def digitsToNat (t : List Char) : Nat :=
  t.foldl (fun n c => 10 * n + (c.toNat - 48)) 0

/-- The per-line step of `parse_blocks`: the parsed first token of the
line, or `none` when the line has no token or a non-numeric first token. -/
def lineBlock (line : List Char) : Option Int :=
  match firstToken line with
  | none => none
  | some t => if isDigits t then some ((digitsToNat t : Nat) : Int) else none

/-- `parse_blocks` (main.py lines 8–15): extract block numbers from the
pasted data, one candidate per line, then `sorted(set(blocks))`. -/
def parse_blocks (data : String) : List Int :=
  (((splitOnNewline (pyStrip data.data)).filterMap lineBlock).dedup).insertionSort (· ≤ ·)

/-- `invert_blocks` (main.py lines 17–20): the members of
`range(total_blocks)` not in the good set, in range order. -/
def invert_blocks (good_blocks : List Int) (total_blocks : Int) : List Int :=
  ((List.range total_blocks.toNat).map (fun n : Nat => (n : Int))).filter
    (fun b => decide (b ∉ good_blocks))

/-- The rendering of one closed range in `create_ranges`
(main.py lines 34 and 37): `f"{start}-{end}"` when `start != end`,
else `str(start)`. -/
def renderRange (s e : Int) : String :=
  if s ≠ e then toString s ++ "-" ++ toString e else toString s

/-- The loop of `create_ranges` (main.py lines 30–37) at the level of
`(start, end)` pairs: extend the current range while the next block is
`end + 1`, otherwise emit it and start a new one; emit the final range
when the input is exhausted. -/
def create_ranges_pairs_loop (rest : List Int) (s e : Int) : List (Int × Int) :=
  match rest with
  | [] => [(s, e)]
  | b :: bs =>
    if b = e + 1 then create_ranges_pairs_loop bs s b
    else (s, e) :: create_ranges_pairs_loop bs b b

/-- `create_ranges` at the level of `(start, end)` pairs, before the
textual rendering of main.py lines 34/37 is applied. -/
def create_ranges_pairs : List Int → List (Int × Int)
  | [] => []
  | b :: bs => create_ranges_pairs_loop bs b b

/-- The loop of `create_ranges` (main.py lines 30–37) as written, with
each closed range rendered to its string at emission time. -/
def create_ranges_loop (rest : List Int) (s e : Int) : List String :=
  match rest with
  | [] => [renderRange s e]
  | b :: bs =>
    if b = e + 1 then create_ranges_loop bs s b
    else renderRange s e :: create_ranges_loop bs b b

/-- `create_ranges` (main.py lines 22–38): convert a list of blocks to
range notation strings. -/
def create_ranges : List Int → List String
  | [] => []
  | b :: bs => create_ranges_loop bs b b

/-- `block_to_sector` (main.py lines 40–42). -/
def block_to_sector (block : Int) (sectors_per_block : Int) : Int :=
  block * sectors_per_block

/-- The per-block sector range built in `main` (main.py lines 133–137):
`(block_to_sector block spb, block_to_sector (block+1) spb - 1)`. -/
def sector_range (block : Int) (spb : Int) : Int × Int :=
  (block_to_sector block spb, block_to_sector (block + 1) spb - 1)

/-- The scale factor computed in `main` (main.py line 68):
`total_sectors // total_blocks`, Python floor division. -/
def sectors_per_block (total_sectors total_blocks : Int) : Int :=
  Int.fdiv total_sectors total_blocks

/-- Expansion of a closed integer range `[s, e]` into its members in
ascending order (empty when `e < s`). -/
def expandRange (s e : Int) : List Int :=
  (List.range (e + 1 - s).toNat).map (fun i : Nat => s + (i : Int))

/-! ## Helper lemmas -/

theorem expandRange_self (b : Int) : expandRange b b = [b] := by
  unfold expandRange
  rw [show b + 1 - b = (1 : Int) by ring]
  simp [List.range_succ]

theorem expandRange_succ {s e : Int} (h : s ≤ e) :
    expandRange s (e + 1) = expandRange s e ++ [e + 1] := by
  unfold expandRange
  rw [show (e + 1 + 1 - s).toNat = (e + 1 - s).toNat + 1 by omega, List.range_succ,
    List.map_append]
  simp only [List.map_cons, List.map_nil]
  congr 2
  omega

theorem create_ranges_loop_eq_map_render (rest : List Int) (s e : Int) :
    create_ranges_loop rest s e =
      (create_ranges_pairs_loop rest s e).map (fun p => renderRange p.1 p.2) := by
  induction rest generalizing s e with
  | nil => simp [create_ranges_loop, create_ranges_pairs_loop]
  | cons b bs ih =>
    unfold create_ranges_loop create_ranges_pairs_loop
    by_cases hb : b = e + 1 <;> simp [hb, ih]

theorem create_ranges_eq_map_render (l : List Int) :
    create_ranges l = (create_ranges_pairs l).map (fun p => renderRange p.1 p.2) := by
  cases l with
  | nil => rfl
  | cons b bs => exact create_ranges_loop_eq_map_render bs b b

theorem create_ranges_pairs_loop_head (rest : List Int) (s e : Int) :
    ∃ e0 tl, create_ranges_pairs_loop rest s e = (s, e0) :: tl := by
  induction rest generalizing s e with
  | nil => exact ⟨e, [], rfl⟩
  | cons b bs ih =>
    unfold create_ranges_pairs_loop
    by_cases hb : b = e + 1
    · simpa [hb] using ih s b
    · exact ⟨e, create_ranges_pairs_loop bs b b, by simp [hb]⟩

theorem create_ranges_pairs_loop_flatten (rest : List Int) (s e : Int)
    (hse : s ≤ e) (hsorted : List.Sorted (· < ·) (e :: rest)) :
    (create_ranges_pairs_loop rest s e).flatMap (fun p => expandRange p.1 p.2) =
      expandRange s e ++ rest := by
  induction rest generalizing s e with
  | nil => simp [create_ranges_pairs_loop]
  | cons b bs ih =>
    obtain ⟨hlt, hsorted'⟩ := List.sorted_cons.mp hsorted
    have heb : e < b := hlt b (List.mem_cons_self b bs)
    unfold create_ranges_pairs_loop
    by_cases hb : b = e + 1
    · subst hb
      rw [if_pos rfl, ih s (e + 1) (by omega) hsorted', expandRange_succ hse,
        List.append_assoc]
      rfl
    · rw [if_neg hb]
      rw [List.flatMap_cons, ih b b le_rfl hsorted', expandRange_self]
      rfl

theorem create_ranges_pairs_loop_chain (rest : List Int) (s e : Int)
    (hse : s ≤ e) (hsorted : List.Sorted (· < ·) (e :: rest)) :
    List.Chain' (fun p q : Int × Int => p.2 + 1 < q.1)
        (create_ranges_pairs_loop rest s e) ∧
      ∀ p ∈ create_ranges_pairs_loop rest s e, p.1 ≤ p.2 := by
  induction rest generalizing s e with
  | nil =>
    refine ⟨List.chain'_singleton _, ?_⟩
    intro p hp
    have hp' : p = (s, e) := by simpa [create_ranges_pairs_loop] using hp
    simp [hp', hse]
  | cons b bs ih =>
    obtain ⟨hlt, hsorted'⟩ := List.sorted_cons.mp hsorted
    have heb : e < b := hlt b (List.mem_cons_self b bs)
    unfold create_ranges_pairs_loop
    by_cases hb : b = e + 1
    · rw [if_pos hb]
      exact ih s b (by omega) (hb ▸ hsorted')
    · rw [if_neg hb]
      obtain ⟨hchain, hmem⟩ := ih b b le_rfl hsorted'
      obtain ⟨e0, tl, heq⟩ := create_ranges_pairs_loop_head bs b b
      refine ⟨?_, ?_⟩
      · rw [heq] at hchain ⊢
        exact List.chain'_cons.mpr ⟨by simp; omega, hchain⟩
      · intro p hp
        rcases List.mem_cons.mp hp with h | h
        · simp [h, hse]
        · exact hmem p h

theorem mem_invert_blocks (good : List Int) (total : Int) (b : Int) :
    b ∈ invert_blocks good total ↔ 0 ≤ b ∧ b < total ∧ b ∉ good := by
  unfold invert_blocks
  rw [List.mem_filter]
  simp only [List.mem_map, List.mem_range, decide_eq_true_eq]
  constructor
  · rintro ⟨⟨n, hn, rfl⟩, hg⟩
    refine ⟨by omega, by omega, hg⟩
  · rintro ⟨h0, hlt, hg⟩
    exact ⟨⟨b.toNat, by omega, by omega⟩, hg⟩

theorem sorted_invert_blocks (good : List Int) (total : Int) :
    List.Sorted (· < ·) (invert_blocks good total) := by
  unfold invert_blocks
  refine List.Pairwise.filter _ ?_
  refine List.Pairwise.map _ ?_ (List.pairwise_lt_range total.toNat)
  intro a b hab
  exact_mod_cast hab

/-! ## Claim theorems -/

/-- C1: for every `total_blocks > 0` and every list of integers `good`,
`invert_blocks good total_blocks` is exactly the strictly ascending
enumeration of the integers in `[0, total_blocks)` not in `good`:
it is strictly sorted (so duplicate-free with no omissions possible),
membership is characterised exactly, it is disjoint from `good`, and
together with `good` it covers the whole universe. -/
theorem C1_invert_blocks_complete (good : List Int) (total : Int) (h : 0 < total) :
    List.Sorted (· < ·) (invert_blocks good total) ∧
      (∀ b : Int, b ∈ invert_blocks good total ↔ 0 ≤ b ∧ b < total ∧ b ∉ good) ∧
      (∀ b ∈ invert_blocks good total, b ∉ good) ∧
      (∀ b : Int, 0 ≤ b → b < total → b ∈ invert_blocks good total ∨ b ∈ good) := by
  refine ⟨sorted_invert_blocks good total, fun b => mem_invert_blocks good total b, ?_, ?_⟩
  · intro b hb
    exact ((mem_invert_blocks good total b).mp hb).2.2
  · intro b h0 hlt
    by_cases hg : b ∈ good
    · exact Or.inr hg
    · exact Or.inl ((mem_invert_blocks good total b).mpr ⟨h0, hlt, hg⟩)

/-- Witness for C1 at `good = [1]`, `total_blocks = 3`. -/
theorem C1_witness :
    invert_blocks [1] 3 = [0, 2] ∧ List.Sorted (· < ·) (invert_blocks [1] 3) :=
  ⟨by decide, (C1_invert_blocks_complete [1] 3 (by decide)).1⟩

/-- C2: for every sorted duplicate-free integer sequence `S`, expanding
the ranges produced by `create_ranges S` back into individual integers
reproduces `S` exactly in order; the emitted strings are precisely the
renderings of those `(start, end)` pairs, a singleton as a single decimal
number and a multi-element range as `start-end`. -/
theorem C2_range_round_trip (S : List Int) (h : List.Sorted (· < ·) S) :
    (create_ranges_pairs S).flatMap (fun p => expandRange p.1 p.2) = S ∧
      create_ranges S = (create_ranges_pairs S).map (fun p => renderRange p.1 p.2) := by
  refine ⟨?_, create_ranges_eq_map_render S⟩
  cases S with
  | nil => rfl
  | cons b bs =>
    show (create_ranges_pairs_loop bs b b).flatMap (fun p => expandRange p.1 p.2) = b :: bs
    rw [create_ranges_pairs_loop_flatten bs b b le_rfl h, expandRange_self]
    rfl

/-- Witness for C2 at `S = [0, 1, 3]`. -/
theorem C2_witness :
    (create_ranges_pairs [0, 1, 3]).flatMap (fun p => expandRange p.1 p.2) = [0, 1, 3] ∧
      create_ranges [0, 1, 3] =
        (create_ranges_pairs [0, 1, 3]).map (fun p => renderRange p.1 p.2) :=
  C2_range_round_trip [0, 1, 3] (by decide)

/-- C3: for every block index `b` and every `sectors_per_block = s > 0`,
the sector range of `b` has start `b * s` and end `(b+1) * s - 1`, so
start ≤ end, and the ranges of consecutive blocks are contiguous. -/
theorem C3_sector_mapping_exact (b s : Int) (h : 0 < s) :
    (sector_range b s).1 = b * s ∧ (sector_range b s).2 = (b + 1) * s - 1 ∧
      (sector_range b s).1 ≤ (sector_range b s).2 ∧
      (sector_range b s).2 + 1 = (sector_range (b + 1) s).1 := by
  refine ⟨rfl, rfl, ?_, ?_⟩
  · show b * s ≤ (b + 1) * s - 1
    have hexp : (b + 1) * s = b * s + s := by ring
    linarith
  · show (b + 1) * s - 1 + 1 = (b + 1) * s
    ring

/-- Witness for C3 at `b = 3`, `s = 100` (Scenario 4 of the spec). -/
theorem C3_witness :
    (sector_range 3 100).1 = 3 * 100 ∧ (sector_range 3 100).2 = (3 + 1) * 100 - 1 ∧
      (sector_range 3 100).1 ≤ (sector_range 3 100).2 ∧
      (sector_range 3 100).2 + 1 = (sector_range (3 + 1) 100).1 :=
  C3_sector_mapping_exact 3 100 (by decide)

/-- C4: for every sorted duplicate-free integer sequence `S`, the range
list produced by `create_ranges S` is maximal and ordered: no two
adjacent ranges are mergeable (`prev.end + 1 < next.start`, which also
gives ascending non-overlapping order), every range has start ≤ end, and
the emitted strings are the renderings of exactly those ranges. -/
theorem C4_range_maximality (S : List Int) (h : List.Sorted (· < ·) S) :
    List.Chain' (fun p q : Int × Int => p.2 + 1 < q.1) (create_ranges_pairs S) ∧
      (∀ p ∈ create_ranges_pairs S, p.1 ≤ p.2) ∧
      create_ranges S = (create_ranges_pairs S).map (fun p => renderRange p.1 p.2) := by
  cases S with
  | nil =>
    exact ⟨List.chain'_nil, by simp [create_ranges_pairs], create_ranges_eq_map_render []⟩
  | cons b bs =>
    obtain ⟨hc, hm⟩ := create_ranges_pairs_loop_chain bs b b le_rfl h
    exact ⟨hc, hm, create_ranges_eq_map_render (b :: bs)⟩

/-- Witness for C4 at `S = [5, 7, 8]`. -/
theorem C4_witness :
    List.Chain' (fun p q : Int × Int => p.2 + 1 < q.1) (create_ranges_pairs [5, 7, 8]) ∧
      (∀ p ∈ create_ranges_pairs [5, 7, 8], p.1 ≤ p.2) ∧
      create_ranges [5, 7, 8] =
        (create_ranges_pairs [5, 7, 8]).map (fun p => renderRange p.1 p.2) :=
  C4_range_maximality [5, 7, 8] (by decide)

/-- C5: `parse_blocks` takes each line's first whitespace-delimited
token, keeps exactly the all-decimal-digit ones as non-negative integers
(blank lines, token-less lines and non-numeric first tokens are skipped,
and the function is total, so no error is ever raised), and returns a
deduplicated, strictly ascending sorted list; empty input yields `[]`. -/
theorem C5_parse_blocks_spec (data : String) :
    List.Sorted (· < ·) (parse_blocks data) ∧ (parse_blocks data).Nodup ∧
      (∀ n : Int, n ∈ parse_blocks data ↔
        ∃ line ∈ splitOnNewline (pyStrip data.data), lineBlock line = some n) ∧
      (data = "" → parse_blocks data = []) := by
  have hnodup : (parse_blocks data).Nodup :=
    (List.perm_insertionSort (· ≤ ·) _).nodup_iff.mpr (List.nodup_dedup _)
  have hle : List.Sorted (· ≤ ·) (parse_blocks data) :=
    List.sorted_insertionSort (· ≤ ·) _
  refine ⟨hle.lt_of_le hnodup, hnodup, ?_, ?_⟩
  · intro n
    unfold parse_blocks
    rw [(List.perm_insertionSort (· ≤ ·) _).mem_iff, List.mem_dedup, List.mem_filterMap]
  · intro hdata
    subst hdata
    rfl

/-- Witness for C5 at `data = ""`. -/
theorem C5_witness :
    parse_blocks "" = [] ∧ List.Sorted (· < ·) (parse_blocks "") :=
  ⟨(C5_parse_blocks_spec "").2.2.2 rfl, (C5_parse_blocks_spec "").1⟩

/-- C6: with `total_sectors = 5` and `total_blocks = 10` the code
computes `sectors_per_block = 0` and, far from aborting, goes on to
build a degenerate sector range `(0, -1)` for every bad block (here with
good input `"0"`), which `main` then writes to the output files. -/
theorem C6_degenerate_scale_not_rejected :
    sectors_per_block 5 10 = 0 ∧
      (invert_blocks (parse_blocks "0") 10).map
          (fun b => sector_range b (sectors_per_block 5 10)) =
        List.replicate 9 (0, -1) := by
  decide

/-- C7: for every `total_blocks > 0`, `invert_blocks` ignores good
values outside `[0, total_blocks)`: the result is unchanged when `good`
is first restricted to the universe. -/
theorem C7_out_of_range_ignored (good : List Int) (total : Int) (h : 0 < total) :
    invert_blocks good total =
      invert_blocks (good.filter (fun b => decide (0 ≤ b ∧ b < total))) total := by
  unfold invert_blocks
  refine List.filter_congr ?_
  intro b hb
  rw [List.mem_map] at hb
  obtain ⟨n, hn, rfl⟩ := hb
  rw [List.mem_range] at hn
  rw [decide_eq_decide]
  constructor
  · intro hg hmem
    rw [List.mem_filter] at hmem
    exact hg hmem.1
  · intro hg hmem
    refine hg (List.mem_filter.mpr ⟨hmem, ?_⟩)
    simp only [decide_eq_true_eq]
    constructor <;> omega

/-- Witness for C7 at `good = [1, 99]`, `total_blocks = 3`. -/
theorem C7_witness :
    invert_blocks [1, 99] 3 =
      invert_blocks (List.filter (fun b => decide (0 ≤ b ∧ b < 3)) [1, 99]) 3 :=
  C7_out_of_range_ignored [1, 99] 3 (by decide)

/-- C8: Scenario 6 of the spec, concretely: parsing `"5\n2\n2\n5\n9"`
gives `[2, 5, 9]`, inverting that set over 10 blocks gives
`[0, 1, 3, 4, 6, 7, 8]`, and compressing that sequence gives the range
strings `["0-1", "3-4", "6-8"]`. -/
theorem C8_scenario6 :
    parse_blocks "5\n2\n2\n5\n9" = [2, 5, 9] ∧
      invert_blocks [2, 5, 9] 10 = [0, 1, 3, 4, 6, 7, 8] ∧
      create_ranges [0, 1, 3, 4, 6, 7, 8] = ["0-1", "3-4", "6-8"] :=
  ⟨by decide, by decide, by decide⟩

/-- C9: for every `total_blocks ≤ 0`, `invert_blocks` returns the empty
list normally instead of raising: the `total_blocks > 0` precondition is
not checked, and its violation yields an empty universe. -/
theorem C9_nonpositive_total (good : List Int) (total : Int) (h : total ≤ 0) :
    invert_blocks good total = [] := by
  unfold invert_blocks
  rw [show total.toNat = 0 by omega]
  rfl

/-- Witness for C9 at `good = [3]`, `total_blocks = -2`. -/
theorem C9_witness : invert_blocks [3] (-2) = [] :=
  C9_nonpositive_total [3] (-2) (by decide)

/-- C10: `create_ranges` is total on every list of integers (it never
raises), returns the empty list exactly when the input is empty, and on
every non-empty input the first emitted range starts at the first input
element — including inputs violating the sorted-no-duplicate
precondition. -/
theorem C10_create_ranges_total (l : List Int) :
    (create_ranges l = [] ↔ l = []) ∧
      ∀ b bs, l = b :: bs →
        ∃ e tl, create_ranges_pairs l = (b, e) :: tl ∧
          create_ranges l = renderRange b e :: tl.map (fun p => renderRange p.1 p.2) := by
  constructor
  · constructor
    · intro hempty
      cases l with
      | nil => rfl
      | cons b bs =>
        exfalso
        obtain ⟨e0, tl, heq⟩ := create_ranges_pairs_loop_head bs b b
        rw [create_ranges_eq_map_render,
          show create_ranges_pairs (b :: bs) = create_ranges_pairs_loop bs b b from rfl,
          heq] at hempty
        simp at hempty
    · intro h
      subst h
      rfl
  · intro b bs hl
    subst hl
    obtain ⟨e0, tl, heq⟩ := create_ranges_pairs_loop_head bs b b
    refine ⟨e0, tl, heq, ?_⟩
    rw [create_ranges_eq_map_render,
      show create_ranges_pairs (b :: bs) = create_ranges_pairs_loop bs b b from rfl, heq]
    rfl

/-- Witness for C10 at the unsorted input `[5, 3]`. -/
theorem C10_witness :
    (create_ranges [5, 3] = [] ↔ ([5, 3] : List Int) = []) ∧
      ∃ e tl, create_ranges_pairs [5, 3] = (5, e) :: tl ∧
        create_ranges [5, 3] = renderRange 5 e :: tl.map (fun p => renderRange p.1 p.2) :=
  ⟨(C10_create_ranges_total [5, 3]).1, (C10_create_ranges_total [5, 3]).2 5 [3] rfl⟩

end NTFSfixer
